import Mathlib

/-!
# Verification of the bytecode_mvp stack machine

Shallow embedding of `src/main.rs`: a line-oriented assembly language is
translated (labels, procedure boundaries, instruction emission) into a
linear instruction stream which a stack machine with explicit call frames
executes.  Machine integers (`isize`) are modelled as unbounded `Int`;
a Rust panic — a fatal, unrecoverable abort — is modelled as `none` /
the `fatal` run result.
-/

namespace BytecodeMvp

/-- One call frame, mirroring Rust `struct StackFrame { stack_offset, ip }`.
`ip` is the return address (the pointer value saved when `Call` executed,
already advanced past the `Call` instruction). -/
structure StackFrame where
  stack_offset : Nat
  ip : Nat
deriving DecidableEq, Repr

/-- The instruction set, mirroring Rust `enum Inst`. Addresses are absolute
indices into the instruction stream. -/
inductive Inst where
  | Push (d : Int)
  | Pop
  | Add
  | Sub
  | Incr
  | Decr
  | Mul
  | Div
  | Jump (p : Nat)
  | JE (p : Nat)
  | JNE (p : Nat)
  | JGT (p : Nat)
  | JLT (p : Nat)
  | JGE (p : Nat)
  | JLE (p : Nat)
  | Get (i : Nat)
  | Set (i : Nat)
  | GetArg (i : Nat)
  | SetArg (i : Nat)
  | Noop
  | Print
  | PrintC
  | PrintStack
  | Call (p : Nat)
  | Ret
  | CollapseRet (p : Nat)
deriving DecidableEq, Repr

/-- One item written to stdout by a printing instruction. -/
inductive OutputItem where
  | int (v : Int)
  | char (code : Nat)
  | stackDump (st : List Int)
deriving DecidableEq, Repr

/-- The mutable state of `interpret`: operand stack (index 0 = bottom, the
Rust `Vec` push/pop end is the list's last element), instruction pointer,
call stack (head = most recent frame, the Rust `Vec`'s last element), and
the output written so far. -/
structure MachineState where
  stack : List Int
  pointer : Nat
  callStack : List StackFrame
  output : List OutputItem
deriving DecidableEq, Repr

/-- Rust `Stack::pop`: removes and returns the last element; popping an
empty stack panics (`none`). -/
def stackPop (st : List Int) : Option (List Int × Int) :=
  match st.getLast? with
  | none => none
  | some v => some (st.dropLast, v)

/-- Rust `call_stack.last().map_or(0, |s| s.stack_offset)`: the current
frame's stack offset, `0` when no call frame is active. -/
def frameOffset (cs : List StackFrame) : Nat :=
  match cs with
  | [] => 0
  | f :: _ => f.stack_offset

/-- Effect of a single instruction on the machine state.  The `pointer`
field of `s` has already been advanced past this instruction (the Rust
loop does `pointer += 1` before dispatching).  `none` models a Rust panic
(empty-stack pop/peek, empty call stack, out-of-range index — including a
`usize` subtraction that would go below zero — or division by zero). -/
def execInst (inst : Inst) (s : MachineState) : Option MachineState :=
  match inst with
  | .Noop => some s
  | .Push d => some { s with stack := s.stack ++ [d] }
  | .Pop =>
    match stackPop s.stack with
    | none => none
    | some (st, _) => some { s with stack := st }
  | .Add =>
    match stackPop s.stack with
    | none => none
    | some (st1, a) =>
      match stackPop st1 with
      | none => none
      | some (st2, b) => some { s with stack := st2 ++ [a + b] }
  | .Sub =>
    match stackPop s.stack with
    | none => none
    | some (st1, a) =>
      match stackPop st1 with
      | none => none
      | some (st2, b) => some { s with stack := st2 ++ [b - a] }
  | .Mul =>
    match stackPop s.stack with
    | none => none
    | some (st1, a) =>
      match stackPop st1 with
      | none => none
      | some (st2, b) => some { s with stack := st2 ++ [a * b] }
  | .Div =>
    match stackPop s.stack with
    | none => none
    | some (st1, a) =>
      match stackPop st1 with
      | none => none
      | some (st2, b) =>
        if a = 0 then none else some { s with stack := st2 ++ [Int.tdiv b a] }
  | .Incr =>
    match stackPop s.stack with
    | none => none
    | some (st, v) => some { s with stack := st ++ [v + 1] }
  | .Decr =>
    match stackPop s.stack with
    | none => none
    | some (st, v) => some { s with stack := st ++ [v - 1] }
  | .Jump p => some { s with pointer := p }
  | .JE p =>
    match s.stack.getLast? with
    | none => none
    | some t =>
      if t = 0 then some { s with stack := s.stack.dropLast, pointer := p } else some s
  | .JNE p =>
    match s.stack.getLast? with
    | none => none
    | some t =>
      if t ≠ 0 then some { s with stack := s.stack.dropLast, pointer := p } else some s
  | .JGT p =>
    match s.stack.getLast? with
    | none => none
    | some t =>
      if t > 0 then some { s with stack := s.stack.dropLast, pointer := p } else some s
  | .JLT p =>
    match s.stack.getLast? with
    | none => none
    | some t =>
      if t < 0 then some { s with stack := s.stack.dropLast, pointer := p } else some s
  | .JGE p =>
    match s.stack.getLast? with
    | none => none
    | some t =>
      if t ≥ 0 then some { s with stack := s.stack.dropLast, pointer := p } else some s
  | .JLE p =>
    match s.stack.getLast? with
    | none => none
    | some t =>
      if t ≤ 0 then some { s with stack := s.stack.dropLast, pointer := p } else some s
  | .Get i =>
    match s.stack.get? (i + frameOffset s.callStack) with
    | none => none
    | some v => some { s with stack := s.stack ++ [v] }
  | .Set i =>
    match s.stack.get? (i + frameOffset s.callStack) with
    | none => none
    | some _ =>
      match s.stack.getLast? with
      | none => none
      | some t => some { s with stack := s.stack.set (i + frameOffset s.callStack) t }
  | .GetArg i =>
    match s.callStack with
    | [] => none
    | f :: _ =>
      if i + 1 ≤ f.stack_offset then
        match s.stack.get? (f.stack_offset - 1 - i) with
        | none => none
        | some v => some { s with stack := s.stack ++ [v] }
      else none
  | .SetArg i =>
    match s.callStack with
    | [] => none
    | f :: _ =>
      if i + 1 ≤ f.stack_offset then
        match s.stack.getLast? with
        | none => none
        | some t =>
          match s.stack.get? (f.stack_offset - 1 - i) with
          | none => none
          | some _ => some { s with stack := s.stack.set (f.stack_offset - 1 - i) t }
      else none
  | .Print =>
    match s.stack.getLast? with
    | none => none
    | some t => some { s with output := s.output ++ [OutputItem.int t] }
  | .PrintC =>
    match s.stack.getLast? with
    | none => none
    | some t => some { s with output := s.output ++ [OutputItem.char (Int.emod t 256).toNat] }
  | .PrintStack => some { s with output := s.output ++ [OutputItem.stackDump s.stack] }
  | .Call p =>
    some { s with callStack := ⟨s.stack.length, s.pointer⟩ :: s.callStack, pointer := p }
  | .Ret =>
    match s.callStack with
    | [] => none
    | f :: cs => some { s with callStack := cs, pointer := f.ip }
  | .CollapseRet p =>
    match s.callStack with
    | [] => none
    | f :: cs =>
      match stackPop s.stack with
      | none => none
      | some (st, v) =>
        if p + 1 ≤ f.stack_offset then
          match st.get? (f.stack_offset - 1 - p) with
          | none => none
          | some _ =>
            some { s with
                   stack := (st.set (f.stack_offset - 1 - p) v).take (f.stack_offset - p),
                   callStack := cs,
                   pointer := f.ip }
        else none

/-- Result of running the machine. -/
inductive RunResult where
  | halted (s : MachineState)
  | fatal (s : MachineState)
  | outOfFuel (s : MachineState)
deriving DecidableEq, Repr

/-- Rust `interpret`: fetch the instruction at `pointer` (halting normally
when the pointer runs past the end), advance the pointer, execute the
effect, repeat.  The fuel bounds the number of iterations; a Rust panic
yields `fatal` carrying the state just before the offending instruction
(whose `output` already holds everything printed so far). -/
def interpret (program : List Inst) : Nat → MachineState → RunResult
  | 0, s => .outOfFuel s
  | fuel + 1, s =>
    match program.get? s.pointer with
    | none => .halted s
    | some inst =>
      match execInst inst { s with pointer := s.pointer + 1 } with
      | none => .fatal s
      | some s2 => interpret program fuel s2

/-- The initial machine state: empty stack, pointer 0, empty call stack. -/
def initState : MachineState := ⟨[], 0, [], []⟩

/-! ## Translator

The translator input is the filtered token-lists: `main` splits the file
into lines, splits each line on whitespace, and drops blank lines and lines
whose first token is `--`.  Symbol tables (`BTreeMap`) are modelled as
association lists where `insert` prepends and `List.lookup` finds the most
recent binding — exactly the map's insert-overwrites-lookup behaviour. -/

/-- The value of a decimal digit character. -/
def digitVal (c : Char) : Nat := c.toNat - 48

/-- Accumulate decimal digits; any non-digit character fails. -/
def digitsToNat : List Char → Nat → Option Nat
  | [], acc => some acc
  | c :: cs, acc => if c.isDigit then digitsToNat cs (acc * 10 + digitVal c) else none

/-- A nonempty all-digit run parsed as a natural number. -/
def parseDigitsNat (cs : List Char) : Option Nat :=
  match cs with
  | [] => none
  | _ => digitsToNat cs 0

/-- Rust `str::parse::<usize>()`: optional leading `+`, then one or more
decimal digits (the unbounded model ignores `usize` overflow). -/
def parseNat (s : String) : Option Nat :=
  match s.toList with
  | '+' :: cs => parseDigitsNat cs
  | cs => parseDigitsNat cs

/-- Rust `str::parse::<isize>()`: optional leading `+` or `-`, then one or
more decimal digits (the unbounded model ignores `isize` overflow). -/
def parseInt (s : String) : Option Int :=
  match s.toList with
  | '+' :: cs => (parseDigitsNat cs).map (fun n => (n : Int))
  | '-' :: cs => (parseDigitsNat cs).map (fun n => -(n : Int))
  | cs => (parseDigitsNat cs).map (fun n => (n : Int))

/-- Rust `find_label`: a line of exactly the form `label <name>` yields the
binding `name ↦ current index`. -/
def find_label (i : Nat) (s : List String) : Option (String × Nat) :=
  match s with
  | ["label", l] => some (l, i)
  | _ => none

/-- The label table: every `label <name>` line's binding, inserted in line
order into the map (later insertions shadow earlier ones, as `collect` into
a `BTreeMap` overwrites). -/
def buildLabels (lines : List (List String)) : List (String × Nat) :=
  (lines.enum.filterMap fun p => find_label p.1 p.2).foldl (fun m kv => kv :: m) []

/-- The scanning loop of Rust `find_procedures`, written as a single pass:
outside a procedure (`cur = none`) a `Proc <name>` line opens one; inside
(`cur = some (name, start)`) the scan only looks for a line that is exactly
`End`, and on finding it at index `e` inserts `name ↦ (start, e + 1)`.
Reaching the end of the input while still inside a procedure is the Rust
out-of-bounds panic on `lines[ip]` (`none`). -/
def find_procedures_go :
    List (List String) → Nat → Option (String × Nat) → List (String × Nat × Nat) →
    Option (List (String × Nat × Nat))
  | [], _, none, res => some res
  | [], _, some _, _ => none
  | l :: ls, ip, some (name, start), res =>
    if l = ["End"] then find_procedures_go ls (ip + 1) none ((name, (start, ip + 1)) :: res)
    else find_procedures_go ls (ip + 1) (some (name, start)) res
  | l :: ls, ip, none, res =>
    match l with
    | ["Proc", name] => find_procedures_go ls (ip + 1) (some (name, ip)) res
    | _ => find_procedures_go ls (ip + 1) none res

/-- Rust `find_procedures`: the procedure table
`name ↦ (start_index, end_index + 1)`. -/
def find_procedures (lines : List (List String)) : Option (List (String × Nat × Nat)) :=
  find_procedures_go lines 0 none []

/-- Rust `parse_instruction`: one tokenized line to one instruction, with
symbolic operands resolved through the two tables.  `none` models the
panics: unrecognized opcode, unparsable numeric literal, or a name absent
from its table. -/
def parse_instruction (s : List String) (labels : List (String × Nat))
    (procedures : List (String × Nat × Nat)) : Option Inst :=
  match s with
  | ["Push", x] => (parseInt x).map Inst.Push
  | ["Pop"] => some .Pop
  | ["Add"] => some .Add
  | ["Sub"] => some .Sub
  | ["Mul"] => some .Mul
  | ["Div"] => some .Div
  | ["Incr"] => some .Incr
  | ["Decr"] => some .Decr
  | ["Jump", l] => (labels.lookup l).map Inst.Jump
  | ["JE", l] => (labels.lookup l).map Inst.JE
  | ["JNE", l] => (labels.lookup l).map Inst.JNE
  | ["JGE", l] => (labels.lookup l).map Inst.JGE
  | ["JLE", l] => (labels.lookup l).map Inst.JLE
  | ["JGT", l] => (labels.lookup l).map Inst.JGT
  | ["JLT", l] => (labels.lookup l).map Inst.JLT
  | ["Get", p] => (parseNat p).map Inst.Get
  | ["Set", p] => (parseNat p).map Inst.Set
  | ["GetArg", p] => (parseNat p).map Inst.GetArg
  | ["SetArg", p] => (parseNat p).map Inst.SetArg
  | ["Print"] => some .Print
  | ["PrintC"] => some .PrintC
  | ["PrintStack"] => some .PrintStack
  | ["Proc", procName] => (procedures.lookup procName).map (fun pr => Inst.Jump pr.2)
  | ["Call", procName] => (procedures.lookup procName).map (fun pr => Inst.Call (pr.1 + 1))
  | ["Ret"] => some .Ret
  | ["CollapseRet", p] => (parseNat p).map Inst.CollapseRet
  | "label" :: _ => some .Noop
  | ["End"] => some .Noop
  | _ => none

/-- The line filtering `main` applies before translation: blank lines and
lines whose first token is `--` are dropped. -/
def filterLines (lines : List (List String)) : List (List String) :=
  lines.filter fun s =>
    match s with
    | [] => false
    | "--" :: _ => false
    | _ => true

/-- Mapping `parse_instruction` over every line (the `.map(...).collect()`
of Rust `main`); the first panic aborts the whole translation. -/
def parseLines (labels : List (String × Nat)) (procedures : List (String × Nat × Nat)) :
    List (List String) → Option (List Inst)
  | [] => some []
  | l :: ls =>
    match parse_instruction l labels procedures with
    | none => none
    | some inst =>
      match parseLines labels procedures ls with
      | none => none
      | some insts => some (inst :: insts)

/-- The translation phase of Rust `main`: build the label table, build the
procedure table, then map every line through `parse_instruction`.  Any
failure aborts the whole translation; no partial program is produced. -/
def translate (lines : List (List String)) : Option (List Inst) :=
  match find_procedures lines with
  | none => none
  | some procedures => parseLines (buildLabels lines) procedures lines

/-! ## Spec-side evaluator for arithmetic-only programs

Modelled from the spec's words (§8): "the final stack top equals the
arithmetic result of left-to-right evaluation under each operator's stated
pop order" — a straight-line stack evaluator with no instruction pointer,
used as the reference the machine is compared against. -/

/-- One left-to-right evaluation step for the arithmetic fragment:
`a` is the first-popped (topmost) operand and `b` the second-popped;
`Add` pushes `a+b`, `Mul` pushes `a*b`, `Sub` pushes `b−a`, `Div` pushes
`b÷a` truncated toward zero.  Underflow, division by zero, and any
instruction outside the fragment fail. -/
def arithStep (inst : Inst) (st : List Int) : Option (List Int) :=
  match inst with
  | .Push d => some (st ++ [d])
  | .Add =>
    match stackPop st with
    | none => none
    | some (st1, a) =>
      match stackPop st1 with
      | none => none
      | some (st2, b) => some (st2 ++ [a + b])
  | .Sub =>
    match stackPop st with
    | none => none
    | some (st1, a) =>
      match stackPop st1 with
      | none => none
      | some (st2, b) => some (st2 ++ [b - a])
  | .Mul =>
    match stackPop st with
    | none => none
    | some (st1, a) =>
      match stackPop st1 with
      | none => none
      | some (st2, b) => some (st2 ++ [a * b])
  | .Div =>
    match stackPop st with
    | none => none
    | some (st1, a) =>
      match stackPop st1 with
      | none => none
      | some (st2, b) => if a = 0 then none else some (st2 ++ [Int.tdiv b a])
  | _ => none

/-- Left-to-right evaluation of an arithmetic-only program on a stack. -/
def evalArith : List Inst → List Int → Option (List Int)
  | [], st => some st
  | inst :: rest, st =>
    match arithStep inst st with
    | none => none
    | some st' => evalArith rest st'

/-- Well-formedness of one procedure-table entry `(name, start, en)` with
respect to the full line list: `start` is a `Proc name` line, `en = e + 1`
for the first `End` line `e` after `start`. -/
def procEntryOk (L : List (List String)) (ent : String × Nat × Nat) : Prop :=
  ∃ e : Nat, ent.2.2 = e + 1 ∧ ent.2.1 < e ∧
    L.get? ent.2.1 = some ["Proc", ent.1] ∧
    L.get? e = some ["End"] ∧
    ∀ j, ent.2.1 < j → j < e → L.get? j ≠ some ["End"]

/-! ## Theorems -/

/-- Association-list lookup finds the value of the first pair whose key
matches. -/
theorem lookup_eq_filter_head {β : Type} (k : String) :
    ∀ l : List (String × β),
      l.lookup k = ((l.filter fun kv => k == kv.1).head?).map Prod.snd := by
  intro l
  induction l with
  | nil => rfl
  | cons kv t ih =>
    obtain ⟨a, b⟩ := kv
    cases hb : (k == a) with
    | true => simp [List.lookup, List.filter, hb]
    | false => simpa [List.lookup, List.filter, hb] using ih

/-- Folding cons over a list prepends its reverse. -/
theorem foldl_cons_eq_reverse {β : Type} :
    ∀ (l init : List (String × β)),
      l.foldl (fun m kv => kv :: m) init = l.reverse ++ init := by
  intro l
  induction l with
  | nil => intro init; rfl
  | cons x t ih =>
    intro init
    rw [List.foldl_cons, ih, List.reverse_cons, List.append_assoc]
    rfl

/-- Looking a name up in the label table yields the address recorded by the
last matching `label` declaration (the `BTreeMap` insert-overwrites
behaviour). -/
theorem buildLabels_lookup (lines : List (List String)) (name : String) :
    (buildLabels lines).lookup name =
      (((lines.enum.filterMap fun p => find_label p.1 p.2).filter
         fun kv => name == kv.1).getLast?).map Prod.snd := by
  show ((lines.enum.filterMap fun p => find_label p.1 p.2).foldl
          (fun m kv => kv :: m) []).lookup name = _
  rw [foldl_cons_eq_reverse, List.append_nil, lookup_eq_filter_head,
    List.filter_reverse, List.head?_reverse]

/-- The literal-pattern reductions of `parse_instruction` used below. -/
theorem parse_instruction_push (x : String) (labels : List (String × Nat))
    (procs : List (String × Nat × Nat)) :
    parse_instruction ["Push", x] labels procs = (parseInt x).map Inst.Push := rfl

/-- Reduction of `parse_instruction` on a `Jump` line. -/
theorem parse_instruction_jump (l : String) (labels : List (String × Nat))
    (procs : List (String × Nat × Nat)) :
    parse_instruction ["Jump", l] labels procs = (labels.lookup l).map Inst.Jump := rfl

/-- Reduction of `parse_instruction` on a `Proc` line. -/
theorem parse_instruction_proc (n : String) (labels : List (String × Nat))
    (procs : List (String × Nat × Nat)) :
    parse_instruction ["Proc", n] labels procs =
      (procs.lookup n).map (fun pr => Inst.Jump pr.2) := rfl

/-- Reduction of `parse_instruction` on a `Call` line. -/
theorem parse_instruction_call (n : String) (labels : List (String × Nat))
    (procs : List (String × Nat × Nat)) :
    parse_instruction ["Call", n] labels procs =
      (procs.lookup n).map (fun pr => Inst.Call (pr.1 + 1)) := rfl

/-- Parsing the lines fails as soon as any line fails. -/
theorem parseLines_none_of_mem (labels : List (String × Nat))
    (procs : List (String × Nat × Nat)) :
    ∀ (l : List (List String)) (a : List String), a ∈ l →
      parse_instruction a labels procs = none → parseLines labels procs l = none := by
  intro l
  induction l with
  | nil => intro a ha; exact absurd ha (List.not_mem_nil a)
  | cons x t ih =>
    intro a ha hf
    rcases List.mem_cons.mp ha with h | h
    · subst h
      simp [parseLines, hf]
    · cases hx : parse_instruction x labels procs with
      | none => simp [parseLines, hx]
      | some b => simp [parseLines, hx, ih a h hf]

/-- When parsing all lines succeeds, every line parsed and the emitted
instructions line up with the lines index by index. -/
theorem parseLines_get? (labels : List (String × Nat))
    (procs : List (String × Nat × Nat)) :
    ∀ (l : List (List String)) (prog : List Inst),
      parseLines labels procs l = some prog →
      prog.length = l.length ∧
      ∀ (i : Nat) (a : List String), l.get? i = some a →
        ∃ inst, parse_instruction a labels procs = some inst ∧ prog.get? i = some inst := by
  intro l
  induction l with
  | nil =>
    intro prog h
    simp only [parseLines, Option.some_inj] at h
    subst h
    exact ⟨rfl, fun i a ha => by simp at ha⟩
  | cons x t ih =>
    intro prog h
    cases hx : parse_instruction x labels procs with
    | none => rw [parseLines, hx] at h; exact Option.noConfusion h
    | some inst =>
      cases hm : parseLines labels procs t with
      | none => rw [parseLines, hx, hm] at h; exact Option.noConfusion h
      | some insts =>
        rw [parseLines, hx, hm] at h
        obtain rfl : inst :: insts = prog := Option.some_inj.mp h
        obtain ⟨hlen, hidx⟩ := ih insts hm
        refine ⟨by simp [hlen], ?_⟩
        intro i a ha
        cases i with
        | zero =>
          simp only [List.get?, Option.some_inj] at ha
          subst ha
          exact ⟨inst, hx, rfl⟩
        | succ j =>
          simp only [List.get?] at ha ⊢
          exact hidx j a ha

/-- Scanning for a procedure's `End` with none remaining runs off the end
of the line list (the Rust out-of-bounds panic). -/
theorem go_none_of_no_end :
    ∀ (rest : List (List String)) (ip : Nat) (nm : String) (st : Nat)
      (res : List (String × Nat × Nat)),
      (∀ l ∈ rest, l ≠ ["End"]) →
      find_procedures_go rest ip (some (nm, st)) res = none := by
  intro rest
  induction rest with
  | nil => intro ip nm st res _; rfl
  | cons l ls ih =>
    intro ip nm st res h
    have hl : l ≠ ["End"] := h l (List.mem_cons_self l ls)
    simp only [find_procedures_go]
    rw [if_neg hl]
    exact ih (ip + 1) nm st res fun l' hl' => h l' (List.mem_cons_of_mem l hl')

/-- A `Proc` line not preceded by any other `Proc` line and never followed
by an `End` line makes the whole procedure scan fail. -/
theorem go_none_unterminated :
    ∀ (rest : List (List String)) (k ip : Nat)
      (res : List (String × Nat × Nat)) (name : String),
      rest.get? k = some ["Proc", name] →
      (∀ j, j < k → ∀ m, rest.get? j ≠ some ["Proc", m]) →
      (∀ j, k < j → rest.get? j ≠ some ["End"]) →
      find_procedures_go rest ip none res = none := by
  intro rest
  induction rest with
  | nil => intro k ip res name hk; simp at hk
  | cons l ls ih =>
    intro k ip res name hk hnoP hnoE
    cases k with
    | zero =>
      simp only [List.get?, Option.some_inj] at hk
      subst hk
      simp only [find_procedures_go]
      refine go_none_of_no_end ls (ip + 1) name ip res ?_
      intro l' hl' he
      obtain ⟨j, hj⟩ := List.get?_of_mem hl'
      exact hnoE (j + 1) (by omega) (by simpa [he] using hj)
    | succ k' =>
      have hlP : ∀ m, l ≠ ["Proc", m] := by
        intro m hm
        exact hnoP 0 (by omega) m (by simpa using congrArg some hm)
      simp only [find_procedures_go]
      exact ih k' (ip + 1) res name hk
        (fun j hj m => hnoP (j + 1) (by omega) m)
        (fun j hj => hnoE (j + 1) (by omega))

/-- C4: every translation-time failure is fatal and total: an unrecognized
opcode, a numeric operand that does not parse, a label or procedure name
absent from its table, and a `Proc` with no following `End` (the forward
scan runs off the end rather than succeeding) each make `parse_instruction`
— and with it the whole translation — return nothing; conversely a
successful translation resolved every line, so no partially resolved
program is ever produced. -/
theorem claim4_translation_errors :
    (∀ (labels : List (String × Nat)) (procs : List (String × Nat × Nat)) (x : String),
       parseInt x = none → parse_instruction ["Push", x] labels procs = none) ∧
    (∀ (labels : List (String × Nat)) (procs : List (String × Nat × Nat)) (l : String),
       labels.lookup l = none → parse_instruction ["Jump", l] labels procs = none) ∧
    (∀ (labels : List (String × Nat)) (procs : List (String × Nat × Nat)) (n : String),
       procs.lookup n = none →
       parse_instruction ["Proc", n] labels procs = none ∧
       parse_instruction ["Call", n] labels procs = none) ∧
    (∀ (labels : List (String × Nat)) (procs : List (String × Nat × Nat)),
       parse_instruction ["Frobnicate"] labels procs = none ∧ parseInt "abc" = none) ∧
    (∀ (lines : List (List String)) (procs : List (String × Nat × Nat)),
       find_procedures lines = some procs →
       (∃ l ∈ lines, parse_instruction l (buildLabels lines) procs = none) →
       translate lines = none) ∧
    (∀ (lines : List (List String)) (k : Nat) (name : String),
       lines.get? k = some ["Proc", name] →
       (∀ j, j < k → ∀ m, lines.get? j ≠ some ["Proc", m]) →
       (∀ j, k < j → lines.get? j ≠ some ["End"]) →
       find_procedures lines = none ∧ translate lines = none) ∧
    (∀ (lines : List (List String)) (prog : List Inst),
       translate lines = some prog →
       ∃ procs, find_procedures lines = some procs ∧
         prog.length = lines.length ∧
         ∀ (i : Nat) (l : List String), lines.get? i = some l →
           ∃ inst, parse_instruction l (buildLabels lines) procs = some inst ∧
             prog.get? i = some inst) := by
  refine ⟨?_, ?_, ?_, ?_, ?_, ?_, ?_⟩
  · intro labels procs x h
    rw [parse_instruction_push, h]
    rfl
  · intro labels procs l h
    rw [parse_instruction_jump, h]
    rfl
  · intro labels procs n h
    exact ⟨by rw [parse_instruction_proc, h]; rfl, by rw [parse_instruction_call, h]; rfl⟩
  · intro labels procs
    exact ⟨rfl, by decide⟩
  · intro lines procs hfp ⟨l, hl, hparse⟩
    simp only [translate, hfp]
    exact parseLines_none_of_mem _ _ lines l hl hparse
  · intro lines k name hk hnoP hnoE
    have hfp : find_procedures lines = none :=
      go_none_unterminated lines k 0 [] name hk hnoP hnoE
    refine ⟨hfp, ?_⟩
    simp only [translate, hfp]
  · intro lines prog htr
    cases hfp : find_procedures lines with
    | none =>
      simp only [translate, hfp] at htr
      exact Option.noConfusion htr
    | some procs =>
      simp only [translate, hfp] at htr
      obtain ⟨hlen, hidx⟩ := parseLines_get? _ _ lines prog htr
      exact ⟨procs, rfl, hlen, hidx⟩

/-- Witness for C4 at concrete inputs: a bad numeral, an undeclared label,
an undeclared procedure, an unterminated `Proc` block (scan failure and
whole-translation failure), and a failing line killing the whole
translation. -/
theorem claim4_translation_errors_witness :
    parse_instruction ["Push", "abc"] [] [] = none ∧
    parse_instruction ["Jump", "x"] [] [] = none ∧
    parse_instruction ["Proc", "f"] [] [] = none ∧
    (find_procedures [["Proc", "f"], ["Push", "1"]] = none ∧
     translate [["Proc", "f"], ["Push", "1"]] = none) ∧
    translate [["Push", "oops"]] = none :=
  ⟨claim4_translation_errors.1 [] [] "abc" (by decide),
   claim4_translation_errors.2.1 [] [] "x" rfl,
   (claim4_translation_errors.2.2.1 [] [] "f" rfl).1,
   claim4_translation_errors.2.2.2.2.2.1 [["Proc", "f"], ["Push", "1"]] 0 "f" (by decide)
     (fun j hj m => absurd hj (by omega))
     (by
       intro j hj he
       rcases j with _ | _ | j
       · omega
       · exact absurd (Option.some_inj.mp he) (by decide)
       · simp [List.get?] at he),
   claim4_translation_errors.2.2.2.2.1 [["Push", "oops"]] []
     (by decide) ⟨["Push", "oops"], by decide, by decide⟩⟩

/-- Association-list lookup only returns values of pairs present in the
list. -/
theorem lookup_mem {β : Type} (k : String) :
    ∀ (l : List (String × β)) (v : β), l.lookup k = some v → (k, v) ∈ l := by
  intro l
  induction l with
  | nil => intro v h; exact Option.noConfusion h
  | cons kv t ih =>
    intro v h
    obtain ⟨a, b⟩ := kv
    cases hb : (k == a) with
    | true =>
      have hk : k = a := eq_of_beq hb
      simp only [List.lookup, hb] at h
      obtain rfl : b = v := Option.some_inj.mp h
      rw [hk]
      exact List.mem_cons_self _ _
    | false =>
      simp only [List.lookup, hb] at h
      exact List.mem_cons_of_mem _ (ih v h)

/-- Soundness invariant of the procedure scan: provided the entries
accumulated so far are well formed and the in-progress procedure (if any)
started at a `Proc` line with no `End` seen since, every entry of a
successful scan is well formed: its `start` is a `Proc` line for its name
and its recorded exit is one past the first `End` line after `start`. -/
theorem find_procedures_go_sound (L : List (List String)) :
    ∀ (rest : List (List String)) (ip : Nat) (cur : Option (String × Nat))
      (res procs : List (String × Nat × Nat)),
      L.drop ip = rest →
      (∀ nm st, cur = some (nm, st) →
         st < ip ∧ L.get? st = some ["Proc", nm] ∧
         ∀ j, st < j → j < ip → L.get? j ≠ some ["End"]) →
      (∀ ent ∈ res, procEntryOk L ent) →
      find_procedures_go rest ip cur res = some procs →
      ∀ ent ∈ procs, procEntryOk L ent := by
  intro rest
  induction rest with
  | nil =>
    intro ip cur res procs hdrop hcur hres hgo
    cases cur with
    | none =>
      obtain rfl : res = procs := Option.some_inj.mp hgo
      exact hres
    | some pr =>
      obtain ⟨nm, st⟩ := pr
      exact Option.noConfusion hgo
  | cons l ls ih =>
    intro ip cur res procs hdrop hcur hres hgo
    have hL : L.get? ip = some l := by
      have h0 := List.get?_drop L ip 0
      rw [hdrop] at h0
      simpa using h0.symm
    have hdrop' : L.drop (ip + 1) = ls := by
      have h1 := List.drop_drop 1 ip L
      rw [hdrop] at h1
      simpa using h1.symm
    cases cur with
    | some pr =>
      obtain ⟨nm, st⟩ := pr
      obtain ⟨hst, hstP, hmid⟩ := hcur nm st rfl
      by_cases hEnd : l = ["End"]
      · simp only [find_procedures_go, if_pos hEnd] at hgo
        refine ih (ip + 1) none ((nm, (st, ip + 1)) :: res) procs hdrop' ?_ ?_ hgo
        · intro nm' st' h
          exact Option.noConfusion h
        · intro ent hent
          rcases List.mem_cons.mp hent with h | h
          · subst h
            exact ⟨ip, rfl, hst, hstP, hEnd ▸ hL, hmid⟩
          · exact hres ent h
      · simp only [find_procedures_go, if_neg hEnd] at hgo
        refine ih (ip + 1) (some (nm, st)) res procs hdrop' ?_ hres hgo
        intro nm' st' h
        injection h with h'
        cases h'
        refine ⟨by omega, hstP, ?_⟩
        intro j hj1 hj2
        rcases Nat.lt_or_ge j ip with hlt | hge
        · exact hmid j hj1 hlt
        · have hj : j = ip := by omega
          subst hj
          rw [hL]
          intro hcontra
          exact hEnd (Option.some_inj.mp hcontra)
    | none =>
      by_cases hp : ∃ m, l = ["Proc", m]
      · obtain ⟨m, rfl⟩ := hp
        simp only [find_procedures_go] at hgo
        refine ih (ip + 1) (some (m, ip)) res procs hdrop' ?_ hres hgo
        intro nm' st' h
        injection h with h'
        cases h'
        refine ⟨by omega, hL, ?_⟩
        intro j hj1 hj2
        exact absurd hj1 (by omega)
      · have hlP : ∀ m, l ≠ ["Proc", m] := fun m hm => hp ⟨m, hm⟩
        have hstep : find_procedures_go (l :: ls) ip none res =
            find_procedures_go ls (ip + 1) none res := by
          simp only [find_procedures_go]
        rw [hstep] at hgo
        exact ih (ip + 1) none res procs hdrop'
          (fun nm' st' h => Option.noConfusion h) hres hgo

/-- C1 (amended): procedure emission runs through the table entry of the
name's last-recorded declaration.  Part one: every table entry
`name ↦ (s, en)` satisfies `en = e + 1` with `s` a `Proc name` line and `e`
the first `End` line after `s`, and then a `Proc name` line is emitted as
`Jump (e+1)` (the exit address) and a `Call name` line as `Call (s+1)`
(one slot past the guard).  Part two: when the name is declared by exactly
one `Proc` line at index `s`, whose matching (first following) `End` is at
index `e`, a successful translation emits exactly `Jump (e+1)` at `s` and
`Call (s+1)` at every `Call name` line — the original claim, which fails
without the uniqueness proviso (see the counterexample). -/
theorem claim1_proc_call_emission :
    (∀ (lines : List (List String)) (procs : List (String × Nat × Nat))
       (name : String) (st en : Nat),
       find_procedures lines = some procs →
       procs.lookup name = some (st, en) →
       ∃ e, en = e + 1 ∧ st < e ∧
         lines.get? st = some ["Proc", name] ∧
         lines.get? e = some ["End"] ∧
         (∀ j, st < j → j < e → lines.get? j ≠ some ["End"]) ∧
         ∀ labels, parse_instruction ["Proc", name] labels procs = some (Inst.Jump (e + 1)) ∧
           parse_instruction ["Call", name] labels procs = some (Inst.Call (st + 1))) ∧
    (∀ (lines : List (List String)) (prog : List Inst) (s e : Nat) (name : String),
       translate lines = some prog →
       lines.get? s = some ["Proc", name] →
       (∀ j, lines.get? j = some ["Proc", name] → j = s) →
       s < e →
       lines.get? e = some ["End"] →
       (∀ j, s < j → j < e → lines.get? j ≠ some ["End"]) →
       prog.get? s = some (Inst.Jump (e + 1)) ∧
       ∀ k, lines.get? k = some ["Call", name] → prog.get? k = some (Inst.Call (s + 1))) := by
  have main :
      ∀ (lines : List (List String)) (procs : List (String × Nat × Nat))
        (name : String) (st en : Nat),
        find_procedures lines = some procs →
        procs.lookup name = some (st, en) →
        ∃ e, en = e + 1 ∧ st < e ∧
          lines.get? st = some ["Proc", name] ∧
          lines.get? e = some ["End"] ∧
          (∀ j, st < j → j < e → lines.get? j ≠ some ["End"]) ∧
          ∀ labels, parse_instruction ["Proc", name] labels procs = some (Inst.Jump (e + 1)) ∧
            parse_instruction ["Call", name] labels procs = some (Inst.Call (st + 1)) := by
    intro lines procs name st en hfp hlk
    have hsound := find_procedures_go_sound lines lines 0 none [] procs rfl
      (fun nm st' h => Option.noConfusion h)
      (fun ent hent => absurd hent (List.not_mem_nil ent)) hfp
    obtain ⟨e, he1, he2, he3, he4, he5⟩ :=
      hsound _ (lookup_mem name procs (st, en) hlk)
    have he1' : en = e + 1 := he1
    refine ⟨e, he1', he2, he3, he4, he5, ?_⟩
    intro labels
    constructor
    · rw [parse_instruction_proc, hlk]
      simp [he1']
    · rw [parse_instruction_call, hlk]
      rfl
  refine ⟨main, ?_⟩
  intro lines prog s e name htr hs huniq hse hE hmid
  cases hfp : find_procedures lines with
  | none =>
    rw [show translate lines = none from by simp [translate, hfp]] at htr
    exact Option.noConfusion htr
  | some procs =>
    have hpl : parseLines (buildLabels lines) procs lines = some prog := by
      simpa [translate, hfp] using htr
    obtain ⟨hlen, hidx⟩ := parseLines_get? _ _ lines prog hpl
    obtain ⟨instP, hparseP, hprogP⟩ := hidx s _ hs
    rw [parse_instruction_proc] at hparseP
    cases hlk : procs.lookup name with
    | none =>
      rw [hlk] at hparseP
      exact Option.noConfusion hparseP
    | some pr =>
      obtain ⟨st', en'⟩ := pr
      rw [hlk] at hparseP
      simp only [Option.map_some'] at hparseP
      obtain rfl : Inst.Jump en' = instP := Option.some_inj.mp hparseP
      obtain ⟨e', he1, he2, he3, he4, he5, hlab⟩ := main lines procs name st' en' hfp hlk
      have hst's : st' = s := huniq st' he3
      subst hst's
      have hee : e' = e := by
        rcases lt_trichotomy e' e with h | h | h
        · exact absurd he4 (hmid e' he2 h)
        · exact h
        · exact absurd hE (he5 e hse h)
      subst hee
      refine ⟨he1 ▸ hprogP, ?_⟩
      intro k hk
      obtain ⟨instC, hparseC, hprogC⟩ := hidx k _ hk
      rw [parse_instruction_call, hlk] at hparseC
      simp only [Option.map_some'] at hparseC
      obtain rfl : Inst.Call (st' + 1) = instC := Option.some_inj.mp hparseC
      exact hprogC

/-- Counterexample to C1 as stated: in the program
`Proc f; End; Proc f; End` the `Proc` line at index 0 has its matching
`End` at index 1, so the claim demands the emitted guard be
`Jump (1 + 1) = Jump 2`; the code emits `Jump 4`, because both `Proc f`
lines resolve through the table entry of the second declaration. -/
theorem claim1_guard_jump_counterexample :
    ([["Proc", "f"], ["End"], ["Proc", "f"], ["End"]] : List (List String)).get? 0 =
        some ["Proc", "f"] ∧
    ([["Proc", "f"], ["End"], ["Proc", "f"], ["End"]] : List (List String)).get? 1 =
        some ["End"] ∧
    translate [["Proc", "f"], ["End"], ["Proc", "f"], ["End"]] =
      some [Inst.Jump 4, Inst.Noop, Inst.Jump 4, Inst.Noop] ∧
    ([Inst.Jump 4, Inst.Noop, Inst.Jump 4, Inst.Noop] : List Inst).get? 0 ≠
      some (Inst.Jump (1 + 1)) :=
  ⟨rfl, rfl, by decide, by decide⟩

/-- Witness for C1 (amended) on `Proc f; Push 1; End; Call f`: the table
entry is `f ↦ (0, 3)` with the `End` at index 2, the guard compiles to
`Jump 3` and the call to `Call 1`. -/
theorem claim1_proc_call_emission_witness :
    (∃ e, 3 = e + 1 ∧ 0 < e ∧
      ([["Proc", "f"], ["Push", "1"], ["End"], ["Call", "f"]] :
          List (List String)).get? 0 = some ["Proc", "f"] ∧
      ([["Proc", "f"], ["Push", "1"], ["End"], ["Call", "f"]] :
          List (List String)).get? e = some ["End"] ∧
      (∀ j, 0 < j → j < e →
        ([["Proc", "f"], ["Push", "1"], ["End"], ["Call", "f"]] :
            List (List String)).get? j ≠ some ["End"]) ∧
      ∀ labels, parse_instruction ["Proc", "f"] labels [("f", (0, 3))] =
          some (Inst.Jump (e + 1)) ∧
        parse_instruction ["Call", "f"] labels [("f", (0, 3))] =
          some (Inst.Call (0 + 1))) ∧
    ([Inst.Jump 3, Inst.Push 1, Inst.Noop, Inst.Call 1] : List Inst).get? 0 =
        some (Inst.Jump (2 + 1)) ∧
    (∀ k, ([["Proc", "f"], ["Push", "1"], ["End"], ["Call", "f"]] :
        List (List String)).get? k = some ["Call", "f"] →
      ([Inst.Jump 3, Inst.Push 1, Inst.Noop, Inst.Call 1] : List Inst).get? k =
        some (Inst.Call (0 + 1))) := by
  refine ⟨?_, ?_⟩
  · exact claim1_proc_call_emission.1
      [["Proc", "f"], ["Push", "1"], ["End"], ["Call", "f"]]
      [("f", (0, 3))] "f" 0 3 (by decide) (by decide)
  · exact claim1_proc_call_emission.2
      [["Proc", "f"], ["Push", "1"], ["End"], ["Call", "f"]]
      [Inst.Jump 3, Inst.Push 1, Inst.Noop, Inst.Call 1] 0 2 "f"
      (by decide) (by decide)
      (by
        intro j hj
        rcases j with _ | _ | _ | _ | j
        · rfl
        · exact absurd (Option.some_inj.mp hj) (by decide)
        · exact absurd (Option.some_inj.mp hj) (by decide)
        · exact absurd (Option.some_inj.mp hj) (by decide)
        · simp [List.get?] at hj)
      (by decide) (by decide)
      (by
        intro j h1 h2
        interval_cases j
        decide)

/-- C9: duplicate label or procedure declarations are not an error: the
table keeps a single entry per name and every reference resolves to the
later declaration.  In general a label lookup returns the address of the
last `label` line with that name; concretely, with `a` declared at lines 0
and 1 the `Jump` resolves to address 1, and with `f` declared twice both
`Proc f` guard jumps and the `Call f` use the second declaration's entry
(guard jump to 4, call target 2 + 1 = 3). -/
theorem claim9_duplicate_names :
    (∀ (lines : List (List String)) (name : String),
       (buildLabels lines).lookup name =
         (((lines.enum.filterMap fun p => find_label p.1 p.2).filter
            fun kv => name == kv.1).getLast?).map Prod.snd) ∧
    translate [["label", "a"], ["label", "a"], ["Jump", "a"]] =
      some [Inst.Noop, Inst.Noop, Inst.Jump 1] ∧
    translate [["Proc", "f"], ["End"], ["Proc", "f"], ["End"], ["Call", "f"]] =
      some [Inst.Jump 4, Inst.Noop, Inst.Jump 4, Inst.Noop, Inst.Call 3] :=
  ⟨buildLabels_lookup, by decide, by decide⟩

/-- An arithmetic evaluation step agrees with the machine's instruction
effect: the pointer, call stack, and output are untouched. -/
theorem arithStep_exec (inst : Inst) (st st' : List Int) (k : Nat)
    (cs : List StackFrame) (out : List OutputItem)
    (h : arithStep inst st = some st') :
    execInst inst ⟨st, k, cs, out⟩ = some ⟨st', k, cs, out⟩ := by
  cases inst <;> simp only [arithStep] at h <;> simp only [execInst] <;>
    (try (repeat' split at h)) <;> simp_all

/-- Jump-free arithmetic execution: if left-to-right evaluation of the
remaining instructions (the program from position `k` on) succeeds, the
machine runs them one pointer step at a time and halts with the evaluated
stack, never touching the call stack or the output. -/
theorem evalArith_interpret (prog : List Inst) :
    ∀ (rest : List Inst) (k : Nat) (st st' : List Int)
      (cs : List StackFrame) (out : List OutputItem),
      prog.drop k = rest →
      k ≤ prog.length →
      evalArith rest st = some st' →
      interpret prog (rest.length + 1) ⟨st, k, cs, out⟩ =
        RunResult.halted ⟨st', prog.length, cs, out⟩ := by
  intro rest
  induction rest with
  | nil =>
    intro k st st' cs out hdrop hk hev
    have hlen : prog.length ≤ k := List.drop_eq_nil_iff.mp hdrop
    have hkeq : k = prog.length := le_antisymm hk hlen
    subst hkeq
    have hget : prog.get? prog.length = none := List.get?_eq_none.mpr hlen
    simp only [evalArith, Option.some_inj] at hev
    simp only [List.length_nil, interpret, hget, hev]
  | cons inst rest ih =>
    intro k st st' cs out hdrop hk hev
    have hget : prog.get? k = some inst := by
      have h0 : (prog.drop k).get? 0 = prog.get? (k + 0) := List.get?_drop prog k 0
      rw [hdrop] at h0
      simpa using h0.symm
    have hklt : k < prog.length := by
      by_contra hc
      rw [List.drop_eq_nil_of_le (by omega)] at hdrop
      exact List.noConfusion hdrop
    have hdrop' : prog.drop (k + 1) = rest := by
      have : List.drop 1 (List.drop k prog) = List.drop (k + 1) prog := List.drop_drop 1 k prog
      rw [hdrop] at this
      simpa using this.symm
    simp only [evalArith] at hev
    cases hstep : arithStep inst st with
    | none => rw [hstep] at hev; exact Option.noConfusion hev
    | some st1 =>
      rw [hstep] at hev
      have hexec := arithStep_exec inst st st1 (k + 1) cs out hstep
      simp only [List.length_cons, interpret, hget, hexec]
      exact ih (k + 1) st1 st' cs out hdrop' (by omega) hev

/-- C7: a well-formed program of only `Push`/`Add`/`Sub`/`Mul`/`Div`
instructions that never underflows and never divides by zero (i.e. its
left-to-right evaluation succeeds, where `a` is the first-popped operand
and `b` the second-popped: `Add` pushes `a+b`, `Mul` pushes `a*b`, `Sub`
pushes `b−a`, `Div` pushes `b÷a` truncated toward zero) runs to a normal
halt whose final stack is exactly the evaluated stack, so the final stack
top is the left-to-right arithmetic result. -/
theorem claim7_arith_programs (prog : List Inst) (st : List Int) (v : Int)
    (hev : evalArith prog [] = some st)
    (htop : st.getLast? = some v) :
    ∃ sf : MachineState,
      interpret prog (prog.length + 1) initState = RunResult.halted sf ∧
      sf.stack = st ∧ sf.stack.getLast? = some v ∧ sf.callStack = [] := by
  have h := evalArith_interpret prog prog 0 [] st [] [] (by simp) (by omega) hev
  exact ⟨⟨st, prog.length, [], []⟩, by simpa using h, rfl, htop, rfl⟩

/-- Witness for C7: the program `Push 3; Push 4; Add` halts with stack
`[7]` and top `7`. -/
theorem claim7_arith_programs_witness :
    ∃ sf : MachineState,
      interpret [Inst.Push 3, Inst.Push 4, Inst.Add]
          ([Inst.Push 3, Inst.Push 4, Inst.Add].length + 1) initState =
        RunResult.halted sf ∧
      sf.stack = [7] ∧ sf.stack.getLast? = some 7 ∧ sf.callStack = [] :=
  claim7_arith_programs [Inst.Push 3, Inst.Push 4, Inst.Add] [7] 7 (by decide) (by decide)

/-- C3: `Call(addr)` executed at instruction index `k` (so with the pointer
already advanced to `k + 1`) pushes a frame with `stack_offset` = current
operand-stack length and return address `k + 1`, leaves the operand stack
untouched, and jumps to `addr`; a `Ret` executed with that frame on top
pops exactly that frame, resumes at `k + 1`, and neither adds nor removes
operand-stack elements. -/
theorem claim3_call_ret :
    ∀ (stk : List Int) (k addr : Nat) (cs : List StackFrame) (out : List OutputItem),
      execInst (Inst.Call addr) ⟨stk, k + 1, cs, out⟩ =
        some ⟨stk, addr, ⟨stk.length, k + 1⟩ :: cs, out⟩ ∧
      ∀ (stk2 : List Int) (p2 : Nat) (cs2 : List StackFrame) (out2 : List OutputItem),
        execInst Inst.Ret ⟨stk2, p2, ⟨stk.length, k + 1⟩ :: cs2, out2⟩ =
          some ⟨stk2, k + 1, cs2, out2⟩ := by
  intro stk k addr cs out
  exact ⟨rfl, fun _ _ _ _ => rfl⟩

/-- C2: with top frame `F` and a nonempty operand stack, `CollapseRet(p)`
pops `F`, pops the top value `v`, overwrites slot `F.stack_offset − 1 − p`
with `v`, truncates the stack to length `F.stack_offset − p` (so the slot
holding `v` is the new top), and jumps to `F`'s return address; in
particular after a `Call` (whose frame records the call-time stack length)
the stack ends with exactly `stack_offset − p` elements, the last being the
callee's return value. -/
theorem claim2_collapse_ret (s : MachineState) (f : StackFrame) (cs : List StackFrame)
    (st : List Int) (v : Int) (p : Nat)
    (hcs : s.callStack = f :: cs)
    (hpop : stackPop s.stack = some (st, v))
    (hp : p + 1 ≤ f.stack_offset)
    (hidx : f.stack_offset - 1 - p < st.length) :
    execInst (Inst.CollapseRet p) s =
      some { s with stack := (st.set (f.stack_offset - 1 - p) v).take (f.stack_offset - p),
                    callStack := cs, pointer := f.ip } ∧
    ((st.set (f.stack_offset - 1 - p) v).take (f.stack_offset - p)).length =
      f.stack_offset - p ∧
    ((st.set (f.stack_offset - 1 - p) v).take (f.stack_offset - p)).getLast? = some v := by
  have hget : st.get? (f.stack_offset - 1 - p) = some (st.get ⟨_, hidx⟩) :=
    List.get?_eq_get hidx
  refine ⟨?_, ?_, ?_⟩
  · simp only [execInst, hcs, hpop, hget]
    rw [if_pos hp]
  · rw [List.length_take, List.length_set]
    omega
  · rw [List.getLast?_eq_get?, List.length_take, List.length_set]
    have hmin : min (f.stack_offset - p) st.length = f.stack_offset - p := by omega
    rw [hmin, List.get?_take (by omega : f.stack_offset - p - 1 < f.stack_offset - p)]
    have heq : f.stack_offset - p - 1 = f.stack_offset - 1 - p := by omega
    rw [heq, List.get?_set_eq, hget]
    rfl

/-- C6: a conditional jump executed on a nonempty operand stack inspects
the top without popping; exactly when its condition holds it pops the top
(depth drops by one) and jumps, and otherwise it leaves the stack and the
already-advanced pointer unchanged. -/
theorem claim6_cond_jumps :
    ∀ (s : MachineState) (t : Int) (p : Nat),
      s.stack.getLast? = some t →
      (execInst (Inst.JE p) s =
        if t = 0 then some { s with stack := s.stack.dropLast, pointer := p } else some s) ∧
      (execInst (Inst.JNE p) s =
        if t ≠ 0 then some { s with stack := s.stack.dropLast, pointer := p } else some s) ∧
      (execInst (Inst.JGT p) s =
        if t > 0 then some { s with stack := s.stack.dropLast, pointer := p } else some s) ∧
      (execInst (Inst.JLT p) s =
        if t < 0 then some { s with stack := s.stack.dropLast, pointer := p } else some s) ∧
      (execInst (Inst.JGE p) s =
        if t ≥ 0 then some { s with stack := s.stack.dropLast, pointer := p } else some s) ∧
      (execInst (Inst.JLE p) s =
        if t ≤ 0 then some { s with stack := s.stack.dropLast, pointer := p } else some s) ∧
      s.stack.dropLast.length = s.stack.length - 1 ∧ 0 < s.stack.length := by
  intro s t p h
  have hne : s.stack ≠ [] := by
    intro he
    rw [he] at h
    exact Option.noConfusion h
  refine ⟨?_, ?_, ?_, ?_, ?_, ?_, ?_, ?_⟩
  · simp only [execInst, h]
  · simp only [execInst, h]
  · simp only [execInst, h]
  · simp only [execInst, h]
  · simp only [execInst, h]
  · simp only [execInst, h]
  · exact s.stack.length_dropLast
  · exact List.length_pos.mpr hne

/-- C8: `Get(i)` with a valid target pushes a copy of the value at absolute
index `stack_offset + i` (the offset of the top call frame, or `0` with an
empty call stack); `Set(i)` on a nonempty stack with a valid target
overwrites that absolute index with the current top without popping it, so
the stack depth is unchanged. -/
theorem claim8_get_set :
    (∀ (s : MachineState) (i : Nat) (v : Int),
       s.stack.get? (i + frameOffset s.callStack) = some v →
       execInst (Inst.Get i) s = some { s with stack := s.stack ++ [v] }) ∧
    (∀ (s : MachineState) (i : Nat) (t : Int),
       s.stack.getLast? = some t →
       i + frameOffset s.callStack < s.stack.length →
       execInst (Inst.Set i) s =
         some { s with stack := s.stack.set (i + frameOffset s.callStack) t } ∧
       (s.stack.set (i + frameOffset s.callStack) t).length = s.stack.length) ∧
    frameOffset [] = 0 ∧
    (∀ (f : StackFrame) (cs : List StackFrame), frameOffset (f :: cs) = f.stack_offset) := by
  refine ⟨?_, ?_, rfl, fun _ _ => rfl⟩
  · intro s i v h
    simp only [execInst, h]
  · intro s i t hlast hidx
    obtain ⟨w, hw⟩ : ∃ w, s.stack.get? (i + frameOffset s.callStack) = some w :=
      ⟨_, List.get?_eq_get hidx⟩
    refine ⟨by simp only [execInst, hw, hlast], ?_⟩
    exact s.stack.length_set _ _

/-- C10: `PrintC` writes the single character whose code is the top value
reduced to its low 8 bits (taken modulo 256, so e.g. negative values wrap
rather than erroring), and pops nothing. -/
theorem claim10_printc (s : MachineState) (v : Int) (h : s.stack.getLast? = some v) :
    execInst Inst.PrintC s =
      some { s with output := s.output ++ [OutputItem.char (Int.emod v 256).toNat] } ∧
    (Int.emod v 256).toNat < 256 ∧
    ((Int.emod v 256).toNat : Int) = v % 256 := by
  have h2 : 0 ≤ Int.emod v 256 := Int.emod_nonneg v (by norm_num)
  have h1 : Int.emod v 256 < 256 := Int.emod_lt_of_pos v (by norm_num)
  refine ⟨by simp only [execInst, h], by omega, ?_⟩
  rw [Int.toNat_of_nonneg h2]
  rfl

/-- C5: empty-stack pop or peek, `Ret`/`CollapseRet` on an empty call
stack, an out-of-range absolute stack index in `Get`/`Set`/`GetArg` (also
covering the offset underflow), and division by zero are each fatal: the
step produces no successor state, and the run halts as `fatal` at the
offending instruction with all previously written output intact in the
returned state. -/
theorem claim5_runtime_errors :
    (∀ s : MachineState, s.stack = [] →
       execInst Inst.Pop s = none ∧ execInst Inst.Add s = none ∧
       execInst Inst.Incr s = none ∧ execInst Inst.Print s = none ∧
       execInst Inst.PrintC s = none ∧ (∀ p, execInst (Inst.JE p) s = none)) ∧
    (∀ s : MachineState, s.callStack = [] →
       execInst Inst.Ret s = none ∧ (∀ p, execInst (Inst.CollapseRet p) s = none) ∧
       (∀ i, execInst (Inst.GetArg i) s = none)) ∧
    (∀ (s : MachineState) (i : Nat), s.stack.length ≤ i + frameOffset s.callStack →
       execInst (Inst.Get i) s = none ∧ execInst (Inst.Set i) s = none) ∧
    (∀ (s : MachineState) (f : StackFrame) (cs : List StackFrame) (i : Nat),
       s.callStack = f :: cs →
       (f.stack_offset < i + 1 ∨ s.stack.length ≤ f.stack_offset - 1 - i) →
       execInst (Inst.GetArg i) s = none) ∧
    (∀ s : MachineState, s.stack.getLast? = some 0 → execInst Inst.Div s = none) ∧
    (∀ (program : List Inst) (fuel : Nat) (s : MachineState) (inst : Inst),
       program.get? s.pointer = some inst →
       execInst inst { s with pointer := s.pointer + 1 } = none →
       interpret program (fuel + 1) s = RunResult.fatal s) := by
  refine ⟨?_, ?_, ?_, ?_, ?_, ?_⟩
  · intro s h
    refine ⟨?_, ?_, ?_, ?_, ?_, fun p => ?_⟩ <;> simp [execInst, stackPop, h]
  · intro s h
    refine ⟨?_, fun p => ?_, fun i => ?_⟩ <;> simp [execInst, h]
  · intro s i h
    have hn : s.stack[i + frameOffset s.callStack]? = none := List.getElem?_eq_none h
    exact ⟨by simp [execInst, hn], by simp [execInst, hn]⟩
  · intro s f cs i hcs h
    rcases h with h | h
    · simp only [execInst, hcs]
      rw [if_neg (by omega)]
    · have hn : s.stack.get? (f.stack_offset - 1 - i) = none := List.get?_eq_none.mpr h
      simp only [execInst, hcs, hn]
      split <;> rfl
  · intro s h
    simp only [execInst, stackPop, h]
    split <;> rfl
  · intro program fuel s inst h1 h2
    simp only [interpret, h1, h2]

/-- Witness for C2 at a concrete state: two arguments 5, 7 were on the
stack when the call began (`stack_offset = 2`), the callee left 9 on top;
`CollapseRet 0` overwrites slot 1 with 9, truncates to 2 elements, and
returns. -/
theorem claim2_collapse_ret_witness :
    execInst (Inst.CollapseRet 0) ⟨[5, 7, 9], 4, [⟨2, 3⟩], []⟩ =
      some ⟨(([5, 7] : List Int).set 1 9).take 2, 3, [], []⟩ ∧
    ((([5, 7] : List Int).set 1 9).take 2).length = 2 ∧
    ((([5, 7] : List Int).set 1 9).take 2).getLast? = some 9 :=
  claim2_collapse_ret ⟨[5, 7, 9], 4, [⟨2, 3⟩], []⟩ ⟨2, 3⟩ [] [5, 7] 9 0
    rfl (by decide) (by decide) (by decide)

/-- Witness for C6 at a concrete state: with 3 on top, `JNE` is taken and
consumes the top, `JE` is not taken and changes nothing. -/
theorem claim6_cond_jumps_witness :
    execInst (Inst.JNE 7) ⟨[3], 0, [], []⟩ = some ⟨[], 7, [], []⟩ ∧
    execInst (Inst.JE 7) ⟨[3], 0, [], []⟩ = some ⟨[3], 0, [], []⟩ := by
  have h := claim6_cond_jumps ⟨[3], 0, [], []⟩ 3 7 rfl
  constructor
  · rw [h.2.1]
    norm_num
  · rw [h.1]
    norm_num

/-- Witness for C8 at concrete states: `Get 0` with empty call stack reads
absolute index 0; `Set 0` overwrites index 0 with the unpopped top. -/
theorem claim8_get_set_witness :
    execInst (Inst.Get 0) ⟨[5], 2, [], []⟩ = some ⟨[5] ++ [5], 2, [], []⟩ ∧
    execInst (Inst.Set 0) ⟨[5, 7], 2, [], []⟩ =
      some ⟨([5, 7] : List Int).set 0 7, 2, [], []⟩ ∧
    (([5, 7] : List Int).set 0 7).length = 2 :=
  ⟨claim8_get_set.1 ⟨[5], 2, [], []⟩ 0 5 (by decide),
   (claim8_get_set.2.1 ⟨[5, 7], 2, [], []⟩ 0 7 (by decide) (by decide)).1,
   (claim8_get_set.2.1 ⟨[5, 7], 2, [], []⟩ 0 7 (by decide) (by decide)).2⟩

/-- Witness for C10 at a concrete state: the top value −1 prints as the
character with code 255 (its low 8 bits) and stays on the stack. -/
theorem claim10_printc_witness :
    execInst Inst.PrintC ⟨[-1], 0, [], []⟩ =
      some ⟨[-1], 0, [], [OutputItem.char 255]⟩ ∧
    (255 : Nat) < 256 := by
  have h := claim10_printc ⟨[-1], 0, [], []⟩ (-1) rfl
  have he : (Int.emod (-1) 256).toNat = 255 := by decide
  exact ⟨by simpa [he] using h.1, by norm_num⟩

/-- Witness for C5 at concrete states: each runtime-error condition fires,
and a run that prints 1 and then pops twice dies at the second `Pop` with
the printed output intact. -/
theorem claim5_runtime_errors_witness :
    execInst Inst.Pop ⟨[], 0, [], []⟩ = none ∧
    execInst Inst.Ret ⟨[1], 0, [], []⟩ = none ∧
    execInst (Inst.Get 5) ⟨[1], 0, [], []⟩ = none ∧
    execInst (Inst.GetArg 0) ⟨[], 0, [⟨0, 9⟩], []⟩ = none ∧
    execInst Inst.Div ⟨[4, 0], 0, [], []⟩ = none ∧
    interpret [Inst.Push 1, Inst.Print, Inst.Pop, Inst.Pop] 7
        ⟨[], 3, [], [OutputItem.int 1]⟩ =
      RunResult.fatal ⟨[], 3, [], [OutputItem.int 1]⟩ :=
  ⟨(claim5_runtime_errors.1 ⟨[], 0, [], []⟩ rfl).1,
   (claim5_runtime_errors.2.1 ⟨[1], 0, [], []⟩ rfl).1,
   (claim5_runtime_errors.2.2.1 ⟨[1], 0, [], []⟩ 5 (by decide)).1,
   claim5_runtime_errors.2.2.2.1 ⟨[], 0, [⟨0, 9⟩], []⟩ ⟨0, 9⟩ [] 0 rfl (Or.inl (by decide)),
   claim5_runtime_errors.2.2.2.2.1 ⟨[4, 0], 0, [], []⟩ rfl,
   claim5_runtime_errors.2.2.2.2.2 [Inst.Push 1, Inst.Print, Inst.Pop, Inst.Pop] 6
     ⟨[], 3, [], [OutputItem.int 1]⟩ Inst.Pop (by decide) (by decide)⟩

end BytecodeMvp
